import Mathlib

/-!
Verification of the workflow validation and execution engine of
`backend/workflow_service.py`.

The Python service is shallowly embedded: JSON-like values become the
inductive `JVal`, Python dicts become insertion-ordered association lists,
fallible code returns `Option`/`Except`, and the wall clock, fresh ids and
the persistence files become explicit parameters.  Every definition in the
first part of this file mirrors one Python function of the source; the
second part states and proves the specification claims.
-/

namespace AgentUser

/-- JSON-like values as stored in node `data`, execution `input_data`,
`output_data` and node results.  Objects keep insertion order, like Python
dicts. -/
inductive JVal where
  | null : JVal
  | str : String → JVal
  | obj : List (String × JVal) → JVal

abbrev JMap := List (String × JVal)

mutual

def JVal.deq : (a b : JVal) → Decidable (a = b)
  | .null, .null => .isTrue rfl
  | .null, .str _ => .isFalse (fun h => JVal.noConfusion h)
  | .null, .obj _ => .isFalse (fun h => JVal.noConfusion h)
  | .str _, .null => .isFalse (fun h => JVal.noConfusion h)
  | .str a, .str b =>
    if h : a = b then .isTrue (by rw [h]) else .isFalse (fun he => h (by injection he))
  | .str _, .obj _ => .isFalse (fun h => JVal.noConfusion h)
  | .obj _, .null => .isFalse (fun h => JVal.noConfusion h)
  | .obj _, .str _ => .isFalse (fun h => JVal.noConfusion h)
  | .obj xs, .obj ys =>
    match JVal.deqMap xs ys with
    | .isTrue h => .isTrue (by rw [h])
    | .isFalse h => .isFalse (fun he => h (by injection he))

def JVal.deqMap : (a b : List (String × JVal)) → Decidable (a = b)
  | [], [] => .isTrue rfl
  | [], _ :: _ => .isFalse (fun h => List.noConfusion h)
  | _ :: _, [] => .isFalse (fun h => List.noConfusion h)
  | (k, v) :: r, (k', v') :: r' =>
    if hk : k = k' then
      match JVal.deq v v' with
      | .isTrue hv =>
        match JVal.deqMap r r' with
        | .isTrue hr => .isTrue (by rw [hk, hv, hr])
        | .isFalse hr => .isFalse (fun he => by injection he with h1 h2; exact hr h2)
      | .isFalse hv =>
        .isFalse (fun he => by injection he with h1 h2; injection h1 with hk1 hv1; exact hv hv1)
    else .isFalse (fun he => by injection he with h1 h2; injection h1 with hk1 hv1; exact hk hk1)

end

instance : DecidableEq JVal := JVal.deq

/-- Lookup in an insertion-ordered association list (Python `dict.get`). -/
def alookup {α : Type} : List (String × α) → String → Option α
  | [], _ => none
  | (k, v) :: rest, key => if k = key then some v else alookup rest key

/-- Python `{**m, k: v}` / `m[k] = v`: replace the value in place when the
key is present, otherwise append the binding. -/
def dinsert {α : Type} (key : String) (v : α) : List (String × α) → List (String × α)
  | [] => [(key, v)]
  | (k, v') :: rest => if k = key then (k, v) :: rest else (k, v') :: dinsert key v rest

/-- `class WorkflowNode(BaseModel)`.  The `position` field is opaque 2-D
metadata never read by the engine and is omitted from the embedding. -/
structure WorkflowNode where
  id : String
  type : String
  data : JMap
deriving DecidableEq

/-- `class WorkflowEdge(BaseModel)`. -/
structure WorkflowEdge where
  id : String
  source : String
  target : String
  source_handle : Option String := none
  target_handle : Option String := none
  type : Option String := some "default"
  label : Option String := none
deriving DecidableEq, Repr

/-- `class Workflow(BaseModel)`. -/
structure Workflow where
  id : String
  name : String
  description : String
  nodes : List WorkflowNode
  edges : List WorkflowEdge
  user_id : String
  created_at : String
  updated_at : String
  is_template : Bool := false
  template_category : Option String := none
deriving DecidableEq

/-- `class WorkflowExecution(BaseModel)`. -/
structure WorkflowExecution where
  id : String
  workflow_id : String
  user_id : String
  status : String := "pending"
  input_data : Option JMap := none
  output_data : Option JMap := none
  node_executions : List JMap := []
  start_time : String
  end_time : Option String := none
  error : Option String := none
deriving DecidableEq

/-- One entry of the validator's `errors`/`warnings` lists.  The Python
code builds plain dicts with the keys `type`, `node_id`, `message`,
`severity`, `suggestion`; absent keys are `none` here. -/
structure Issue where
  kind : String
  node_id : Option String := none
  message : String
  severity : Option String := none
  suggestion : Option String := none
deriving DecidableEq, Repr

/-- Result of `validate_workflow`. -/
structure ValidationResult where
  is_valid : Bool
  errors : List Issue
  warnings : List Issue
deriving DecidableEq, Repr

/-- The `connected_node_ids` set of `validate_workflow`: every id occurring
as a source or target of some edge (membership is all that is used). -/
def connectedNodeIds (edges : List WorkflowEdge) : List String :=
  edges.foldl (fun acc e => acc ++ [e.source, e.target]) []

/-- The orphan-node warnings of `validate_workflow`, in node order. -/
def orphanWarnings (nodes : List WorkflowNode) (edges : List WorkflowEdge) : List Issue :=
  nodes.filterMap (fun n =>
    if n.id ∉ connectedNodeIds edges ∧ n.type ≠ "input" then
      some { kind := "node", node_id := some n.id,
             message := "Node is not connected to any other nodes",
             suggestion := some "Connect this node to other nodes or remove it" }
    else none)

/-- The error appended when the workflow has no `input` node. -/
def noInputError : Issue :=
  { kind := "flow", message := "Workflow must have at least one input node",
    severity := some "error" }

/-- The warning appended when the workflow has no `output` node. -/
def noOutputWarning : Issue :=
  { kind := "flow", message := "Workflow has no output nodes",
    suggestion := some "Consider adding output nodes to capture results" }

/-- The error appended when `_check_for_cycles` reports a cycle. -/
def cycleError : Issue :=
  { kind := "flow", message := "Workflow contains cycles which may cause infinite loops",
    severity := some "error" }

/-- Adjacency mapping `node id → list of edge targets`, in insertion
order, as built at the top of `_check_for_cycles`. -/
abbrev Adj := List (String × List String)

/-- `for node in nodes: adjacency[node.id] = []`. -/
def initAdj (nodes : List WorkflowNode) : Adj :=
  nodes.foldl (fun adj n => dinsert n.id [] adj) []

/-- `adjacency[edge.source].append(edge.target)`: `none` models the
`KeyError` raised when the source id has no adjacency entry. -/
def appendTarget : Adj → String → String → Option Adj
  | [], _, _ => none
  | (k, l) :: rest, src, tgt =>
    if k = src then some ((k, l ++ [tgt]) :: rest)
    else (appendTarget rest src tgt).map (fun r => (k, l) :: r)

/-- `for edge in edges: adjacency[edge.source].append(edge.target)`. -/
def addEdges : Adj → List WorkflowEdge → Option Adj
  | adj, [] => some adj
  | adj, e :: es =>
    match appendTarget adj e.source e.target with
    | none => none
    | some adj' => addEdges adj' es

/-- `adjacency.get(node_id, [])`. -/
def lookupAdj (adj : Adj) (k : String) : List String :=
  (alookup adj k).getD []

/-- The two mutable sets of `has_cycle_dfs` (`visited`, `recursion_stack`),
kept as lists; only membership matters. -/
structure DfsSt where
  visited : List String
  stack : List String
deriving DecidableEq, Repr

/-- The `for neighbor in neighbors` loop of `has_cycle_dfs`, parameterised
by the recursive call: returns at the first neighbour reporting a cycle,
otherwise threads the mutated state. -/
def goNeighbors (rec_ : String → DfsSt → Option (Bool × DfsSt)) :
    List String → DfsSt → Option (Bool × DfsSt)
  | [], st => some (false, st)
  | x :: xs, st =>
    match rec_ x st with
    | none => none
    | some (true, st') => some (true, st')
    | some (false, st') => goNeighbors rec_ xs st'

/-- `has_cycle_dfs(node_id)`.  The Python recursion carries no fuel; here
`fuel` is an explicit bound, `none` meaning the bound ran out.  The bound
supplied by `checkForCycles` is proved sufficient below, which is exactly
the termination argument for the Python recursion. -/
def dfsNode (adj : Adj) : Nat → String → DfsSt → Option (Bool × DfsSt)
  | 0, _, _ => none
  | fuel + 1, n, st =>
    if n ∈ st.stack then some (true, st)
    else if n ∈ st.visited then some (false, st)
    else
      let st1 : DfsSt := ⟨n :: st.visited, n :: st.stack⟩
      match goNeighbors (fun a b => dfsNode adj fuel a b) (lookupAdj adj n) st1 with
      | none => none
      | some (true, st2) => some (true, st2)
      | some (false, st2) => some (false, ⟨st2.visited, st2.stack.erase n⟩)

/-- `for node in nodes: if node.id not in visited: if has_cycle_dfs(...)`. -/
def checkOuter (adj : Adj) (fuel : Nat) : List WorkflowNode → DfsSt → Option Bool
  | [], _ => some false
  | n :: ns, st =>
    if n.id ∈ st.visited then checkOuter adj fuel ns st
    else
      match dfsNode adj fuel n.id st with
      | none => none
      | some (true, _) => some true
      | some (false, st') => checkOuter adj fuel ns st'

/-- Every id the DFS can ever visit: the declared node ids plus all edge
targets (`adjacency.get` tolerates unknown targets). -/
def cycleUniv (nodes : List WorkflowNode) (edges : List WorkflowEdge) : List String :=
  ((nodes.map (fun n => n.id)) ++ (edges.map (fun e => e.target))).dedup

/-- `_check_for_cycles(nodes, edges)`; `none` models an escaping exception
(the `KeyError` on an edge whose source has no adjacency entry, or — ruled
out by the sufficiency proof — fuel exhaustion). -/
def checkForCycles (nodes : List WorkflowNode) (edges : List WorkflowEdge) : Option Bool :=
  match addEdges (initAdj nodes) edges with
  | none => none
  | some adj => checkOuter adj ((cycleUniv nodes edges).length + 1) nodes ⟨[], []⟩

/-- `validate_workflow(workflow)`; `none` models an escaping exception
from the cycle check. -/
def validateWorkflow (w : Workflow) : Option ValidationResult :=
  let warnings1 := orphanWarnings w.nodes w.edges
  let inputNodes := w.nodes.filter (fun n => n.type = "input")
  let outputNodes := w.nodes.filter (fun n => n.type = "output")
  let errors1 : List Issue := if inputNodes.isEmpty then [noInputError] else []
  let warnings2 := warnings1 ++ (if outputNodes.isEmpty then [noOutputWarning] else [])
  match checkForCycles w.nodes w.edges with
  | none => none
  | some hasCycles =>
    let errors2 := errors1 ++ (if hasCycles then [cycleError] else [])
    some { is_valid := errors2.isEmpty, errors := errors2, warnings := warnings2 }

/-! ## Execution engine

`_build_execution_graph` compiles the workflow into a LangGraph
`StateGraph` and `_execute_workflow_async` invokes it.  The collaborator's
documented semantics are embedded: nodes added by id, plain `add_edge`
transitions, one entry point, `END` edges after every output node; the
compiled graph runs in supersteps (all active nodes read the same state
snapshot, their returned partial updates overwrite the state channels, two
updates to the same channel in one superstep raise `InvalidUpdateError`,
and the default recursion limit of 25 supersteps raises
`GraphRecursionError`). -/

/-- LangGraph's reserved `END` vertex. -/
def endId : String := "__end__"

/-- The per-type node functions produced by `_create_input_node`,
`_create_output_node`, `_create_agent_node`, `_create_condition_node`,
reduced to their closure data. -/
inductive NodeFn where
  | inputFn (nodeId : String)
  | outputFn (nodeId : String) (data : JMap)
  | agentFn (nodeId : String) (data : JMap)
  | condFn (nodeId : String) (data : JMap)
deriving DecidableEq

/-- The `WorkflowState` schema of `_build_execution_graph`. -/
structure WorkflowState where
  input : JMap := []
  output : JMap := []
  node_results : JMap := []
  execution_id : String
deriving DecidableEq

/-- The state channels a node function may write. -/
inductive Chan where
  | output
  | node_results
deriving DecidableEq

/-- One step of a node function: the channel it returns and the full new
channel value (LangGraph overwrites the channel with it).  Mirrors the
four `async def ..._node_function(state)` bodies.  Non-string `label` /
non-object `agent_config` values (which Python would respectively use as a
raw dict key or crash on) are outside the modelled workflows and take the
fallback branch here. -/
def applyNodeFn : NodeFn → WorkflowState → Chan × JMap
  | .inputFn nid, s => (.node_results, dinsert nid (JVal.obj s.input) s.node_results)
  | .outputFn nid data, s =>
    let outputKey :=
      match alookup data "label" with
      | some (.str l) => l
      | _ => nid
    (.output, dinsert outputKey (JVal.obj []) s.output)
  | .agentFn nid data, s =>
    let cfg : JMap :=
      match alookup data "agent_config" with
      | some (.obj m) => m
      | _ => []
    let result := JVal.obj
      [("agent_id", (alookup data "agent_id").getD .null),
       ("model", (alookup cfg "model").getD (.str "llama2")),
       ("status", .str "completed"),
       ("result", .str "Agent processing result")]
    (.node_results, dinsert nid result s.node_results)
  | .condFn nid _, s =>
    (.node_results, dinsert nid (JVal.obj [("branch", .str "true")]) s.node_results)

/-- `add_node` dispatch of `_build_execution_graph`: unknown node types
are silently not added. -/
def nodeFnFor (n : WorkflowNode) : Option NodeFn :=
  if n.type = "input" then some (.inputFn n.id)
  else if n.type = "output" then some (.outputFn n.id n.data)
  else if n.type = "agent" then some (.agentFn n.id n.data)
  else if n.type = "condition" then some (.condFn n.id n.data)
  else none

/-- The `for node in workflow.nodes: ... add_node ...` loop; adding the
same id twice raises. -/
def addNodesG : List (String × NodeFn) → List WorkflowNode → Except String (List (String × NodeFn))
  | acc, [] => .ok acc
  | acc, n :: ns =>
    match nodeFnFor n with
    | none => addNodesG acc ns
    | some f =>
      if (alookup acc n.id).isSome then .error "node already present"
      else addNodesG (acc ++ [(n.id, f)]) ns

/-- The compiled graph: node functions by id, unconditional transitions
(including the `output → END` ones), and the entry point. -/
structure CompiledGraph where
  nodes : List (String × NodeFn)
  edges : List (String × String)
  entry : String
deriving DecidableEq

/-- `_build_execution_graph(workflow)` followed by `.compile()`:  every
workflow edge becomes an unconditional transition — `source_handle` is
never read — then `output → END` edges are appended; the first `input`
node is the entry point; compilation fails without an entry point or when
an edge endpoint is not an added node. -/
def buildExecutionGraph (w : Workflow) : Except String CompiledGraph :=
  match addNodesG [] w.nodes with
  | .error e => .error e
  | .ok nfs =>
    let baseEdges := w.edges.map (fun e => (e.source, e.target))
    let inputNodes := w.nodes.filter (fun n => n.type = "input")
    let outputNodes := w.nodes.filter (fun n => n.type = "output")
    let allEdges := baseEdges ++ outputNodes.map (fun n => (n.id, endId))
    match inputNodes with
    | [] => .error "Graph must have an entrypoint"
    | i :: _ =>
      if allEdges.all (fun p =>
          (alookup nfs p.1).isSome && ((alookup nfs p.2).isSome || p.2 = endId)) then
        .ok { nodes := nfs, edges := allEdges, entry := i.id }
      else .error "edge references unknown node"

/-- Evaluate every active node of a superstep against the same state
snapshot. -/
def gatherWrites (nfs : List (String × NodeFn)) (s : WorkflowState) :
    List String → Except String (List (Chan × JMap))
  | [] => .ok []
  | n :: ns =>
    match alookup nfs n with
    | none => .error "unknown node"
    | some f =>
      match gatherWrites nfs s ns with
      | .error e => .error e
      | .ok ws => .ok (applyNodeFn f s :: ws)

/-- Number of updates a superstep makes to channel `c`. -/
def countChan (ws : List (Chan × JMap)) (c : Chan) : Nat :=
  (ws.filter (fun w => w.1 = c)).length

/-- Overwrite the written channels with their new values. -/
def applyWrites (s : WorkflowState) : List (Chan × JMap) → WorkflowState
  | [] => s
  | (c, m) :: rest =>
    applyWrites (match c with
      | .output => { s with output := m }
      | .node_results => { s with node_results := m }) rest

/-- Keep the first occurrence of each element. -/
def dedupFirstAux (seen : List String) : List String → List String
  | [] => []
  | x :: xs => if x ∈ seen then dedupFirstAux seen xs else x :: dedupFirstAux (x :: seen) xs

/-- The nodes activated by the next superstep: targets of transitions out
of the nodes that just ran, `END` dropped, one task per node. -/
def nextActive (edges : List (String × String)) (active : List String) : List String :=
  dedupFirstAux [] (((edges.filter (fun p => p.1 ∈ active)).map (fun p => p.2)).filter
    (fun t => t ≠ endId))

/-- Superstep loop of the compiled graph, also recording the executed
nodes in order. -/
def runSteps (g : CompiledGraph) : Nat → List String → WorkflowState → List String →
    Except String (WorkflowState × List String)
  | _, [], s, tr => .ok (s, tr)
  | 0, _ :: _, _, _ => .error "GraphRecursionError"
  | fuel + 1, active, s, tr =>
    match gatherWrites g.nodes s active with
    | .error e => .error e
    | .ok ws =>
      if 2 ≤ countChan ws Chan.output ∨ 2 ≤ countChan ws Chan.node_results then
        .error "InvalidUpdateError"
      else runSteps g fuel (nextActive g.edges active) (applyWrites s ws) (tr ++ active)

/-- LangGraph's default `recursion_limit`. -/
def recursionLimit : Nat := 25

/-- `graph.ainvoke({"input": ..., "execution_id": ...})`, returning the
final state and the executed-node trace. -/
def runGraph (g : CompiledGraph) (input : JMap) (eid : String) :
    Except String (WorkflowState × List String) :=
  runSteps g recursionLimit [g.entry]
    { input := input, output := [], node_results := [], execution_id := eid } []

/-- `_execute_workflow_async(workflow, execution)` with the wall clock and
the executions file made explicit: on success the execution becomes
`completed` with `output_data = result.get("output", {})`; on any raised
error it becomes `failed` with the message; either way the record is
persisted.  `node_executions` is never touched. -/
def executeWorkflowAsync (w : Workflow) (e : WorkflowExecution) (now : String)
    (executions : List (String × WorkflowExecution)) :
    WorkflowExecution × List (String × WorkflowExecution) :=
  let e' :=
    match buildExecutionGraph w with
    | .error msg => { e with status := "failed", error := some msg, end_time := some now }
    | .ok g =>
      match runGraph g (e.input_data.getD []) e.id with
      | .error msg => { e with status := "failed", error := some msg, end_time := some now }
      | .ok (s, _) =>
        { e with status := "completed", output_data := some s.output, end_time := some now }
  (e', dinsert e.id e' executions)

/-! ## Service operations -/

/-- `get_workflow(workflow_id, user_id)`. -/
def getWorkflow (workflows : List (String × Workflow)) (workflowId userId : String) :
    Option Workflow :=
  match alookup workflows workflowId with
  | some w => if w.user_id = userId then some w else none
  | none => none

/-- The `ValueError`s `execute_workflow` can raise: the not-found /
access-denied message, the validation-failure message carrying the
validator's error list, and an exception escaping from the validator
itself. -/
inductive ExecErr where
  | notFound
  | validationFailed (errors : List Issue)
  | raised
deriving DecidableEq

/-- `execute_workflow(workflow_id, user_id, input_data, dry_run)` with the
fresh execution id, the two wall-clock reads and the executions file made
explicit.  Returns the outcome — on success the execution handed to the
caller plus the background task (`asyncio.create_task` argument pair),
`none` for a dry run — together with the resulting executions file. -/
def executeWorkflow (workflows : List (String × Workflow))
    (executions : List (String × WorkflowExecution)) (workflowId userId : String)
    (input : Option JMap) (dryRun : Bool) (freshId now1 now2 : String) :
    Except ExecErr (WorkflowExecution × Option (Workflow × WorkflowExecution)) ×
      List (String × WorkflowExecution) :=
  match getWorkflow workflows workflowId userId with
  | none => (.error .notFound, executions)
  | some w =>
    match validateWorkflow w with
    | none => (.error .raised, executions)
    | some vr =>
      if vr.is_valid = false then (.error (.validationFailed vr.errors), executions)
      else
        let e : WorkflowExecution :=
          { id := freshId, workflow_id := workflowId, user_id := userId,
            status := "running", input_data := some (input.getD []),
            start_time := now1 }
        let ex1 := dinsert freshId e executions
        if dryRun then
          let e' := { e with status := "completed", end_time := some now2 }
          (.ok (e', none), dinsert freshId e' ex1)
        else (.ok (e, some (w, e)), ex1)

/-- The update payload of `update_workflow`: a Python dict that may carry
any subset of the four updatable keys. -/
structure WorkflowUpdate where
  name : Option String := none
  description : Option String := none
  nodes : Option (List WorkflowNode) := none
  edges : Option (List WorkflowEdge) := none

/-- `update_workflow(workflow_id, workflow_data, user_id)` with the wall
clock and the workflows file made explicit. -/
def updateWorkflow (workflows : List (String × Workflow)) (workflowId : String)
    (data : WorkflowUpdate) (userId now : String) :
    Option (Workflow × List (String × Workflow)) :=
  match alookup workflows workflowId with
  | none => none
  | some w =>
    if w.user_id ≠ userId then none
    else
      let w1 := match data.name with | some v => { w with name := v } | none => w
      let w2 := match data.description with | some v => { w1 with description := v } | none => w1
      let w3 := match data.nodes with | some v => { w2 with nodes := v } | none => w2
      let w4 := match data.edges with | some v => { w3 with edges := v } | none => w3
      let w5 := { w4 with updated_at := now }
      some (w5, dinsert workflowId w5 workflows)

/-! ## Specification-side notions

Mathematical definitions used to state the claims; they are deliberately
independent of the implementation above. -/

/-- One directed arc of the workflow graph, as the spec reads the edge
list. -/
def EdgeStep (edges : List WorkflowEdge) (a b : String) : Prop :=
  ∃ e ∈ edges, e.source = a ∧ e.target = b

/-- The workflow graph contains a directed cycle: some vertex reaches
itself by a non-empty edge path. -/
def HasCycle (edges : List WorkflowEdge) : Prop :=
  ∃ n, Relation.TransGen (EdgeStep edges) n n

/-- `pat` occurs at the head of `s`. -/
def patAt : List Char → List Char → Bool
  | [], _ => true
  | _ :: _, [] => false
  | p :: ps, c :: cs => p == c && patAt ps cs

/-- `pat` occurs contiguously somewhere in `s`. -/
def patSomewhere (pat : List Char) : List Char → Bool
  | [] => pat.isEmpty
  | c :: cs => patAt pat (c :: cs) || patSomewhere pat cs

/-- The message `s` mentions the phrase `pat` (contiguous substring). -/
def strMentions (pat s : String) : Bool :=
  patSomewhere pat.toList s.toList

/-! ## Concrete workflows used by the claims -/

/-- The chain scenario of the spec: `input-1 → agent-1 → output-1`, the
output node labelled `result`. -/
def scenarioChain : Workflow :=
  { id := "wf-1", name := "chain", description := "",
    nodes := [⟨"input-1", "input", []⟩, ⟨"agent-1", "agent", []⟩,
              ⟨"output-1", "output", [("label", .str "result")]⟩],
    edges := [{ id := "e1", source := "input-1", target := "agent-1" },
              { id := "e2", source := "agent-1", target := "output-1" }],
    user_id := "u1", created_at := "t0", updated_at := "t0" }

/-- A running execution record for `scenarioChain`, as
`execute_workflow` creates it. -/
def scenarioChainExec : WorkflowExecution :=
  { id := "ex-1", workflow_id := "wf-1", user_id := "u1", status := "running",
    input_data := some [("q", .str "hi")], start_time := "t1" }

/-- The compiled graph of `scenarioChain`. -/
def chainCompiled : CompiledGraph :=
  (buildExecutionGraph scenarioChain).toOption.getD ⟨[], [], ""⟩

/-- Final state and trace of running `scenarioChain`. -/
def chainRun : WorkflowState × List String :=
  (runGraph chainCompiled [("q", JVal.str "hi")] "ex-1").toOption.getD
    (⟨[], [], [], ""⟩, [])

/-- A condition node with a `true`-handle branch (`agent-T`, then its own
output `out-T`) and a `false`-handle branch (`out-F`, reachable only
through the `false` edge). -/
def scenarioBranch : Workflow :=
  { id := "wf-2", name := "branch", description := "",
    nodes := [⟨"input-1", "input", []⟩, ⟨"cond-1", "condition", []⟩,
              ⟨"agent-T", "agent", []⟩, ⟨"out-F", "output", [("label", .str "f")]⟩,
              ⟨"out-T", "output", [("label", .str "t")]⟩],
    edges := [{ id := "e1", source := "input-1", target := "cond-1" },
              { id := "e2", source := "cond-1", target := "agent-T",
                source_handle := some "true" },
              { id := "e3", source := "cond-1", target := "out-F",
                source_handle := some "false" },
              { id := "e4", source := "agent-T", target := "out-T" }],
    user_id := "u1", created_at := "t0", updated_at := "t0" }

/-- The compiled graph of `scenarioBranch`. -/
def branchCompiled : CompiledGraph :=
  (buildExecutionGraph scenarioBranch).toOption.getD ⟨[], [], ""⟩

/-- Final state and trace of running `scenarioBranch`. -/
def branchRun : WorkflowState × List String :=
  (runGraph branchCompiled [] "ex-2").toOption.getD (⟨[], [], [], ""⟩, [])

/-- The executed-node trace of `scenarioBranch`. -/
def branchTrace : List String := branchRun.2

/-- A single input node with a self-loop edge. -/
def selfLoopWorkflow : Workflow :=
  { id := "wf-3", name := "loop", description := "",
    nodes := [⟨"a", "input", []⟩],
    edges := [{ id := "e1", source := "a", target := "a" }],
    user_id := "u1", created_at := "t0", updated_at := "t0" }

/-- An edge whose target `b` is not a node. -/
def danglingTargetWorkflow : Workflow :=
  { id := "wf-4", name := "dt", description := "",
    nodes := [⟨"a", "input", []⟩],
    edges := [{ id := "e1", source := "a", target := "b" }],
    user_id := "u1", created_at := "t0", updated_at := "t0" }

/-- An edge whose source `b` is not a node. -/
def danglingSourceWorkflow : Workflow :=
  { id := "wf-5", name := "ds", description := "",
    nodes := [⟨"a", "input", []⟩],
    edges := [{ id := "e1", source := "b", target := "a" }],
    user_id := "u1", created_at := "t0", updated_at := "t0" }

/-- A workflow with no nodes and no edges. -/
def emptyWorkflow : Workflow :=
  { id := "wf-6", name := "empty", description := "", nodes := [], edges := [],
    user_id := "u1", created_at := "t0", updated_at := "t0" }

/-- An input node `a` plus a two-node cycle `b ↔ c` in a component not
reachable from `a`. -/
def hiddenCycleWorkflow : Workflow :=
  { id := "wf-7", name := "hidden", description := "",
    nodes := [⟨"a", "input", []⟩, ⟨"b", "agent", []⟩, ⟨"c", "agent", []⟩],
    edges := [{ id := "e1", source := "b", target := "c" },
              { id := "e2", source := "c", target := "b" }],
    user_id := "u1", created_at := "t0", updated_at := "t0" }

/-! ## Association-list lemmas -/

theorem alookup_dinsert_self {α : Type} (k : String) (v : α) (m : List (String × α)) :
    alookup (dinsert k v m) k = some v := by
  induction m with
  | nil => simp [dinsert, alookup]
  | cons p rest ih =>
    obtain ⟨k', v'⟩ := p
    by_cases h : k' = k
    · simp [dinsert, h, alookup]
    · simp [dinsert, h, alookup, ih]

theorem alookup_dinsert_ne {α : Type} (k k' : String) (v : α) (m : List (String × α))
    (h : k' ≠ k) : alookup (dinsert k v m) k' = alookup m k' := by
  induction m with
  | nil => simp [dinsert, alookup, Ne.symm h]
  | cons p rest ih =>
    obtain ⟨k0, v0⟩ := p
    by_cases h0 : k0 = k
    · subst h0
      simp [dinsert, alookup, Ne.symm h]
    · simp [dinsert, h0, alookup, ih]

/-! ## Adjacency-construction lemmas -/

theorem appendTarget_none_iff (adj : Adj) (s t : String) :
    appendTarget adj s t = none ↔ alookup adj s = none := by
  induction adj with
  | nil => simp [appendTarget, alookup]
  | cons p rest ih =>
    obtain ⟨k, l⟩ := p
    by_cases h : k = s
    · simp [appendTarget, h, alookup]
    · simp [appendTarget, h, alookup, ih, Option.map_eq_none]

theorem appendTarget_lookup (adj adj' : Adj) (s t : String)
    (h : appendTarget adj s t = some adj') (k : String) :
    alookup adj' k =
      if k = s then (alookup adj s).map (fun l => l ++ [t]) else alookup adj k := by
  induction adj generalizing adj' with
  | nil => simp [appendTarget] at h
  | cons p rest ih =>
    obtain ⟨k0, l⟩ := p
    by_cases h0 : k0 = s
    · subst h0
      rw [show appendTarget ((k0, l) :: rest) k0 t = some ((k0, l ++ [t]) :: rest) from
        by simp [appendTarget]] at h
      rcases Option.some.inj h with rfl
      by_cases hk : k0 = k
      · subst hk
        simp [alookup]
      · simp [alookup, hk, if_neg (Ne.symm hk)]
    · simp only [appendTarget, if_neg h0] at h
      match hrec : appendTarget rest s t with
      | none => simp [hrec] at h
      | some rest' =>
        rw [hrec] at h
        simp only [Option.map_some', Option.some.injEq] at h
        rcases h with rfl
        by_cases hk : k0 = k
        · subst hk
          simp [alookup, if_neg h0]
        · simp [alookup, hk, h0, ih rest' hrec]

theorem addEdges_lookup (es : List WorkflowEdge) (adj adj' : Adj)
    (h : addEdges adj es = some adj') (k : String) :
    alookup adj' k = (alookup adj k).map
      (fun l => l ++ (es.filter (fun e => e.source = k)).map (fun e => e.target)) := by
  induction es generalizing adj with
  | nil =>
    simp only [addEdges, Option.some.injEq] at h
    subst h
    simp
  | cons e es ih =>
    simp only [addEdges] at h
    match hap : appendTarget adj e.source e.target with
    | none => simp [hap] at h
    | some adj1 =>
      rw [hap] at h
      have hlook := appendTarget_lookup adj adj1 e.source e.target hap k
      by_cases hk : k = e.source
      · subst hk
        rw [ih adj1 h, hlook, if_pos rfl,
          List.filter_cons_of_pos (by simp)]
        cases alookup adj e.source with
        | none => simp
        | some l => simp
      · rw [ih adj1 h, hlook, if_neg hk,
          List.filter_cons_of_neg (by simpa using Ne.symm hk)]

theorem addEdges_sources (es : List WorkflowEdge) (adj adj' : Adj)
    (h : addEdges adj es = some adj') :
    ∀ e ∈ es, (alookup adj e.source).isSome = true := by
  induction es generalizing adj with
  | nil => intro e he; simp at he
  | cons e0 es ih =>
    intro e he
    simp only [addEdges] at h
    match hap : appendTarget adj e0.source e0.target with
    | none => simp [hap] at h
    | some adj1 =>
      rw [hap] at h
      rcases List.mem_cons.mp he with he0 | hes
      · subst he0
        rcases hs : alookup adj e.source with _ | l
        · exact absurd ((appendTarget_none_iff adj e.source e.target).mpr hs)
            (by simp [hap])
        · simp
      · have hth := ih adj1 h e hes
        have hlook := appendTarget_lookup adj adj1 e0.source e0.target hap e.source
        by_cases hk : e.source = e0.source
        · rw [hlook, if_pos hk] at hth
          rw [hk]
          rcases hsome : alookup adj e0.source with _ | l
          · rw [hsome] at hth; simp at hth
          · simp
        · rwa [hlook, if_neg hk] at hth

theorem alookup_initAdj_aux (nodes : List WorkflowNode) (acc : Adj) (k : String) :
    alookup (nodes.foldl (fun adj n => dinsert n.id [] adj) acc) k =
      if k ∈ nodes.map (fun n => n.id) then some [] else alookup acc k := by
  induction nodes generalizing acc with
  | nil => simp
  | cons n ns ih =>
    simp only [List.foldl_cons, List.map_cons, List.mem_cons]
    rw [ih]
    by_cases hns : k ∈ ns.map (fun n => n.id)
    · simp [hns]
    · by_cases hn : k = n.id
      · simp [hns, hn, alookup_dinsert_self]
      · simp [hns, hn, alookup_dinsert_ne _ _ _ _ hn]

theorem alookup_initAdj (nodes : List WorkflowNode) (k : String) :
    alookup (initAdj nodes) k =
      if k ∈ nodes.map (fun n => n.id) then some [] else none := by
  rw [initAdj, alookup_initAdj_aux]
  simp [alookup]

/-- Characterisation of the adjacency built by `_check_for_cycles`:
`b` is a recorded neighbour of `a` iff `a` is a node id and some edge goes
from `a` to `b`. -/
theorem mem_lookupAdj_iff (nodes : List WorkflowNode) (edges : List WorkflowEdge)
    (adj : Adj) (h : addEdges (initAdj nodes) edges = some adj) (a b : String) :
    b ∈ lookupAdj adj a ↔
      a ∈ nodes.map (fun n => n.id) ∧ EdgeStep edges a b := by
  rw [lookupAdj, addEdges_lookup edges _ _ h a, alookup_initAdj]
  by_cases ha : a ∈ nodes.map (fun n => n.id)
  · rw [if_pos ha]
    simp only [Option.map_some', Option.getD_some, List.nil_append]
    constructor
    · intro hb
      rcases List.mem_map.mp hb with ⟨e, hef, het⟩
      rcases List.mem_filter.mp hef with ⟨hee, hsrc⟩
      exact ⟨ha, e, hee, by simpa using hsrc, het⟩
    · rintro ⟨-, e, hee, hsrc, htgt⟩
      exact List.mem_map.mpr ⟨e, List.mem_filter.mpr ⟨hee, by simpa using hsrc⟩, htgt⟩
  · rw [if_neg ha]
    simp [ha]

/-- When some edge's source is not a node id, the adjacency construction
raises `KeyError`. -/
theorem addEdges_none_of_missing_source (nodes : List WorkflowNode)
    (edges : List WorkflowEdge) (e : WorkflowEdge) (he : e ∈ edges)
    (hm : e.source ∉ nodes.map (fun n => n.id)) :
    addEdges (initAdj nodes) edges = none := by
  match hadd : addEdges (initAdj nodes) edges with
  | none => rfl
  | some adj =>
    have := addEdges_sources edges _ adj hadd e he
    rw [alookup_initAdj, if_neg hm] at this
    simp at this

/-! ## Claims C1 – C4, C6 – C9 -/

/-- C1, counterexample: in the chain scenario the plan completes normally
(`status = "completed"`), yet `node_executions` holds no entry for any of
the three executed nodes (it stays empty), and `output_data` holds the
empty object — not the agent's result — under the output node's label
`result`.  This falsifies the claim that `node_executions` gets a key per
executed node and that `output_data` carries `"ok"`. -/
theorem C1_counterexample :
    (executeWorkflowAsync scenarioChain scenarioChainExec "t2" []).1.status = "completed" ∧
    (executeWorkflowAsync scenarioChain scenarioChainExec "t2" []).1.node_executions = [] ∧
    (executeWorkflowAsync scenarioChain scenarioChainExec "t2" []).1.output_data =
      some [("result", JVal.obj [])] :=
  ⟨rfl, rfl, rfl⟩

/-- C1, amended: when the compiled plan completes normally, the
asynchronous completion path sets `status = "completed"` and `end_time`,
copies the final `output` channel into `output_data`, persists the record
— but leaves `node_executions` exactly as it was (empty as initialised);
moreover the output handler always stores the empty object under its
label, never an upstream result. -/
theorem C1_async_completion :
    (∀ (w : Workflow) (e : WorkflowExecution) (now : String)
        (store : List (String × WorkflowExecution)) (g : CompiledGraph)
        (s : WorkflowState) (tr : List String),
      buildExecutionGraph w = Except.ok g →
      runGraph g (e.input_data.getD []) e.id = Except.ok (s, tr) →
      (executeWorkflowAsync w e now store).1.status = "completed" ∧
      (executeWorkflowAsync w e now store).1.output_data = some s.output ∧
      (executeWorkflowAsync w e now store).1.end_time = some now ∧
      (executeWorkflowAsync w e now store).1.node_executions = e.node_executions ∧
      alookup (executeWorkflowAsync w e now store).2 e.id =
        some (executeWorkflowAsync w e now store).1) ∧
    (∀ (nid : String) (data : JMap) (st : WorkflowState), ∃ k,
      applyNodeFn (NodeFn.outputFn nid data) st =
        (Chan.output, dinsert k (JVal.obj []) st.output)) ∧
    ((executeWorkflowAsync scenarioChain scenarioChainExec "t2" []).1.output_data =
        some [("result", JVal.obj [])] ∧
      (executeWorkflowAsync scenarioChain scenarioChainExec "t2" []).1.node_executions = []) := by
  refine ⟨?_, ?_, rfl, rfl⟩
  · intro w e now store g s tr hg hr
    simp [executeWorkflowAsync, hg, hr, alookup_dinsert_self]
  · intro nid data st
    exact ⟨_, rfl⟩

theorem C1_async_completion_witness :
    (executeWorkflowAsync scenarioChain scenarioChainExec "t2" []).1.status = "completed" :=
  (C1_async_completion.1 scenarioChain scenarioChainExec "t2" [] chainCompiled
    chainRun.1 chainRun.2 rfl rfl).1

/-- C2, counterexample: in `scenarioBranch` the condition node evaluates
to branch `"true"`, and `out-F` is reachable only through the
`source_handle = "false"` edge, yet `out-F` appears in the executed-node
trace — the untaken branch is executed, falsifying the claim. -/
theorem C2_counterexample :
    branchTrace = ["input-1", "cond-1", "agent-T", "out-F", "out-T"] ∧
    alookup branchRun.1.node_results "cond-1" =
      some (JVal.obj [("branch", JVal.str "true")]) :=
  ⟨rfl, rfl⟩

/-- C2, amended: the engine ignores `source_handle` entirely — every
workflow edge becomes an unconditional transition of the compiled graph,
and the condition handler always records branch `"true"` without any
routing — so every successor of a condition node is traversed, including
nodes reachable only through the untaken branch (concretely, `out-F` runs
in `scenarioBranch`).  Only the claim's `node_executions` half survives,
vacuously: `node_executions` is never populated at all. -/
theorem C2_condition_ignores_handles :
    (∀ (w : Workflow) (g : CompiledGraph), buildExecutionGraph w = Except.ok g →
      ∀ e ∈ w.edges, (e.source, e.target) ∈ g.edges) ∧
    (∀ (nid : String) (data : JMap) (st : WorkflowState),
      applyNodeFn (NodeFn.condFn nid data) st =
        (Chan.node_results, dinsert nid (JVal.obj [("branch", JVal.str "true")])
          st.node_results)) ∧
    "out-F" ∈ branchTrace := by
  refine ⟨?_, fun nid data st => rfl, by decide⟩
  intro w g hg e he
  rw [buildExecutionGraph] at hg
  rcases han : addNodesG [] w.nodes with s | nfs
  · rw [han] at hg; simp at hg
  · rw [han] at hg
    simp only at hg
    rcases hin : w.nodes.filter (fun n => n.type = "input") with _ | ⟨i, rest⟩
    · rw [hin] at hg; simp at hg
    · rw [hin] at hg
      simp only at hg
      split at hg
      · rcases hg with ⟨rfl⟩
        exact List.mem_append_left _ (List.mem_map_of_mem _ he)
      · simp at hg

theorem C2_condition_ignores_handles_witness :
    ("cond-1", "out-F") ∈ branchCompiled.edges :=
  C2_condition_ignores_handles.1 scenarioBranch branchCompiled rfl
    { id := "e3", source := "cond-1", target := "out-F", source_handle := some "false" }
    (by decide)

/-- The execution record a dry run produces. -/
def dryRunRecord (fid wid uid : String) (input : Option JMap) (n1 n2 : String) :
    WorkflowExecution :=
  { id := fid, workflow_id := wid, user_id := uid, status := "completed",
    input_data := some (input.getD []), start_time := n1, end_time := some n2 }

/-- The dry-run outcome on the chain scenario. -/
def dryRunOutcome :
    Except ExecErr (WorkflowExecution × Option (Workflow × WorkflowExecution)) ×
      List (String × WorkflowExecution) :=
  executeWorkflow [("wf-1", scenarioChain)] [] "wf-1" "u1"
    (some [("q", JVal.str "hi")]) true "ex-1" "t1" "t2"

/-- C3, counterexample: the dry run completes with `end_time` set and no
background task, but `output_data` is `None` — not
`{"message": "dry run, no nodes executed"}` as the claim states. -/
theorem C3_counterexample :
    dryRunOutcome.1 = Except.ok
      ({ id := "ex-1", workflow_id := "wf-1", user_id := "u1", status := "completed",
         input_data := some [("q", JVal.str "hi")], output_data := none,
         node_executions := [], start_time := "t1", end_time := some "t2",
         error := none }, none) :=
  rfl

/-- C3, amended: for every owned workflow that passes validation,
`executeWorkflow` with `dryRun = true` persists and returns an Execution
with `status = "completed"` and a set `end_time`, spawns no background
task (hence invokes no node handler and no agent), but leaves
`output_data` unset (`None`) rather than storing any dry-run message. -/
theorem C3_dry_run (wfs : List (String × Workflow))
    (exs : List (String × WorkflowExecution)) (wid uid : String) (input : Option JMap)
    (fid n1 n2 : String) (w : Workflow) (vr : ValidationResult)
    (hw : getWorkflow wfs wid uid = some w) (hv : validateWorkflow w = some vr)
    (hvalid : vr.is_valid = true) :
    ∃ e : WorkflowExecution,
      (executeWorkflow wfs exs wid uid input true fid n1 n2).1 = Except.ok (e, none) ∧
      e.status = "completed" ∧ e.end_time = some n2 ∧ e.output_data = none ∧
      e.node_executions = [] ∧
      alookup (executeWorkflow wfs exs wid uid input true fid n1 n2).2 fid = some e := by
  refine ⟨dryRunRecord fid wid uid input n1 n2, ?_, rfl, rfl, rfl, rfl, ?_⟩
  · simp [executeWorkflow, hw, hv, hvalid, dryRunRecord]
  · simp [executeWorkflow, hw, hv, hvalid, dryRunRecord, alookup_dinsert_self]

theorem C3_dry_run_witness :
    ∃ e : WorkflowExecution,
      dryRunOutcome.1 = Except.ok (e, none) ∧
      e.status = "completed" ∧ e.end_time = some "t2" ∧ e.output_data = none ∧
      e.node_executions = [] ∧ alookup dryRunOutcome.2 "ex-1" = some e :=
  C3_dry_run [("wf-1", scenarioChain)] [] "wf-1" "u1" (some [("q", JVal.str "hi")])
    "ex-1" "t1" "t2" scenarioChain { is_valid := true, errors := [], warnings := [] }
    rfl (by decide) rfl

/-- C4, counterexample: `danglingTargetWorkflow` has an edge whose target
`b` is not a node, yet `validate` reports no error at all (`errors = []`,
`is_valid = true`) — no error names the missing id. -/
theorem C4_counterexample :
    validateWorkflow danglingTargetWorkflow =
      some { is_valid := true, errors := [], warnings := [noOutputWarning] } := by
  decide

/-- C4, amended: `validate_workflow` has no edge-endpoint resolution
rule: an edge whose target is missing yields no error (the workflow can
validate clean), and an edge whose source is missing makes the cycle
check raise `KeyError`, so `validate` fails without returning a result —
it neither names the missing id nor returns normally. -/
theorem C4_no_endpoint_check :
    (∀ w : Workflow, (∃ e ∈ w.edges, e.source ∉ w.nodes.map (fun n => n.id)) →
      validateWorkflow w = none) ∧
    validateWorkflow danglingTargetWorkflow =
      some { is_valid := true, errors := [], warnings := [noOutputWarning] } := by
  refine ⟨?_, by decide⟩
  rintro w ⟨e, he, hm⟩
  have hnone : checkForCycles w.nodes w.edges = none := by
    rw [checkForCycles, addEdges_none_of_missing_source w.nodes w.edges e he hm]
  simp [validateWorkflow, hnone]

theorem C4_no_endpoint_check_witness :
    validateWorkflow danglingSourceWorkflow = none :=
  C4_no_endpoint_check.1 danglingSourceWorkflow
    ⟨{ id := "e1", source := "b", target := "a" }, by decide, by decide⟩

/-- C6, counterexample: `emptyWorkflow` has no output node, yet
`validate` returns `is_valid = false` (because the missing-input error
also fires), falsifying the claim's universal "no output node implies
`isValid = true`". -/
theorem C6_counterexample :
    (emptyWorkflow.nodes.filter (fun n => n.type = "output")).isEmpty = true ∧
    validateWorkflow emptyWorkflow =
      some { is_valid := false, errors := [noInputError],
             warnings := [noOutputWarning] } :=
  ⟨rfl, by decide⟩

/-- C6, amended: with no `input` node `validate` returns
`is_valid = false` carrying the input-node error; with no `output` node
it emits the output warning (so `warnings ≠ []`), and `is_valid = true`
still holds provided an input node exists and the cycle check reports no
cycle; in general `is_valid` is true exactly when `errors` is empty, so
warnings never affect it. -/
theorem C6_validation_flags (w : Workflow) (r : ValidationResult)
    (h : validateWorkflow w = some r) :
    ((w.nodes.filter (fun n => n.type = "input")).isEmpty = true →
      r.is_valid = false ∧ noInputError ∈ r.errors) ∧
    ((w.nodes.filter (fun n => n.type = "output")).isEmpty = true →
      noOutputWarning ∈ r.warnings) ∧
    ((w.nodes.filter (fun n => n.type = "input")).isEmpty = false →
      checkForCycles w.nodes w.edges = some false → r.is_valid = true) ∧
    (r.is_valid = true ↔ r.errors = []) := by
  rw [validateWorkflow] at h
  rcases hc : checkForCycles w.nodes w.edges with _ | b
  · rw [hc] at h; simp at h
  · rw [hc] at h
    simp only [Option.some.injEq] at h
    rcases h with rfl
    refine ⟨?_, ?_, ?_, ?_⟩
    · intro hin
      constructor
      · simp [hin]
      · simp [hin]
    · intro hout
      simp [hout]
    · intro hin hcf
      have hb : b = false := Option.some.inj hcf
      simp [hin, hb]
    · simp [List.isEmpty_iff]

/-- The result `validate_workflow` produces on the empty workflow. -/
def emptyWorkflowResult : ValidationResult :=
  { is_valid := false, errors := [noInputError], warnings := [noOutputWarning] }

theorem C6_validation_flags_witness :
    emptyWorkflowResult.is_valid = false ∧ noInputError ∈ emptyWorkflowResult.errors :=
  (C6_validation_flags emptyWorkflow emptyWorkflowResult (by decide)).1 rfl

/-- C7, counterexample: on the zero-node workflow `validate` does return
`is_valid = false`, but the only error produced is the missing-input
error, whose message does not mention the phrase `at least one node` —
there is no dedicated at-least-one-node rule. -/
theorem C7_counterexample :
    validateWorkflow emptyWorkflow =
      some { is_valid := false, errors := [noInputError],
             warnings := [noOutputWarning] } ∧
    strMentions "at least one node" noInputError.message = false :=
  ⟨by decide, by decide⟩

/-- C7, amended: every workflow with zero nodes (and hence, to avoid the
dangling-source `KeyError`, zero edges) gets `is_valid = false`, but
through the error `Workflow must have at least one input node`; no rule
reports the absence of nodes as such. -/
theorem C7_zero_nodes (w : Workflow) (h1 : w.nodes = []) (h2 : w.edges = []) :
    validateWorkflow w =
      some { is_valid := false, errors := [noInputError],
             warnings := [noOutputWarning] } := by
  rcases w with ⟨id, name, descr, nodes, edges, uid, ca, ua, it, tc⟩
  simp only at h1 h2
  subst h1
  subst h2
  rfl

theorem C7_zero_nodes_witness :
    validateWorkflow emptyWorkflow =
      some { is_valid := false, errors := [noInputError],
             warnings := [noOutputWarning] } :=
  C7_zero_nodes emptyWorkflow rfl rfl

/-- C8: when the workflow is missing or owned by another user,
`execute_workflow` fails with the not-found error; when it fails
validation, with the validation error carrying the validator's error
list; in both cases the executions store is returned unchanged — no
execution record is created or persisted. -/
theorem C8_failure_paths (wfs : List (String × Workflow))
    (exs : List (String × WorkflowExecution)) (wid uid : String) (input : Option JMap)
    (dry : Bool) (fid n1 n2 : String) :
    (getWorkflow wfs wid uid = none →
      executeWorkflow wfs exs wid uid input dry fid n1 n2 =
        (Except.error ExecErr.notFound, exs)) ∧
    (∀ (w : Workflow) (vr : ValidationResult), getWorkflow wfs wid uid = some w →
      validateWorkflow w = some vr → vr.is_valid = false →
      executeWorkflow wfs exs wid uid input dry fid n1 n2 =
        (Except.error (ExecErr.validationFailed vr.errors), exs)) := by
  constructor
  · intro h
    simp [executeWorkflow, h]
  · intro w vr hw hv hvalid
    simp [executeWorkflow, hw, hv, hvalid]

theorem C8_failure_paths_witness :
    executeWorkflow [] [] "wf-x" "u1" none false "ex" "t1" "t2" =
      (Except.error ExecErr.notFound, []) ∧
    executeWorkflow [("wf-6", emptyWorkflow)] [] "wf-6" "u1" none false "ex" "t1" "t2" =
      (Except.error (ExecErr.validationFailed [noInputError]), []) := by
  constructor
  · exact (C8_failure_paths [] [] "wf-x" "u1" none false "ex" "t1" "t2").1 rfl
  · exact (C8_failure_paths [("wf-6", emptyWorkflow)] [] "wf-6" "u1" none false "ex"
      "t1" "t2").2 emptyWorkflow
      { is_valid := false, errors := [noInputError], warnings := [noOutputWarning] }
      rfl (by decide) rfl

/-- The workflow a successful update produces. -/
def updatedRecord (w : Workflow) (d : WorkflowUpdate) (now : String) : Workflow :=
  { id := w.id, name := d.name.getD w.name,
    description := d.description.getD w.description, nodes := d.nodes.getD w.nodes,
    edges := d.edges.getD w.edges, user_id := w.user_id, created_at := w.created_at,
    updated_at := now, is_template := w.is_template,
    template_category := w.template_category }

/-- C9: a successful `update_workflow` replaces exactly the payload's
fields among `name`, `description`, `nodes`, `edges`, re-stamps
`updated_at` with the current time, and leaves `id`, `user_id`,
`created_at`, `is_template`, `template_category` unchanged. -/
theorem C9_update_frame (wfs : List (String × Workflow)) (wid : String)
    (d : WorkflowUpdate) (uid now : String) (w : Workflow)
    (hw : alookup wfs wid = some w) (hu : w.user_id = uid) :
    ∃ w', updateWorkflow wfs wid d uid now = some (w', dinsert wid w' wfs) ∧
      w'.id = w.id ∧ w'.user_id = w.user_id ∧ w'.created_at = w.created_at ∧
      w'.is_template = w.is_template ∧ w'.template_category = w.template_category ∧
      w'.updated_at = now ∧ w'.name = d.name.getD w.name ∧
      w'.description = d.description.getD w.description ∧
      w'.nodes = d.nodes.getD w.nodes ∧ w'.edges = d.edges.getD w.edges := by
  refine ⟨updatedRecord w d now, ?_, rfl, rfl, rfl, rfl, rfl, rfl, rfl, rfl, rfl, rfl⟩
  rw [updatedRecord, updateWorkflow, hw]
  simp only
  rw [if_neg (by simp [hu])]
  obtain ⟨nm, ds, nds, eds⟩ := d
  cases nm <;> cases ds <;> cases nds <;> cases eds <;> rfl

theorem C9_update_frame_witness :
    ∃ w', updateWorkflow [("wf-1", scenarioChain)] "wf-1"
        { name := some "renamed" } "u1" "t9" =
        some (w', dinsert "wf-1" w' [("wf-1", scenarioChain)]) ∧
      w'.id = scenarioChain.id ∧ w'.user_id = scenarioChain.user_id ∧
      w'.created_at = scenarioChain.created_at ∧
      w'.is_template = scenarioChain.is_template ∧
      w'.template_category = scenarioChain.template_category ∧
      w'.updated_at = "t9" ∧
      w'.name = (some "renamed").getD scenarioChain.name ∧
      w'.description = (none : Option String).getD scenarioChain.description ∧
      w'.nodes = (none : Option (List WorkflowNode)).getD scenarioChain.nodes ∧
      w'.edges = (none : Option (List WorkflowEdge)).getD scenarioChain.edges :=
  C9_update_frame [("wf-1", scenarioChain)] "wf-1" { name := some "renamed" }
    "u1" "t9" scenarioChain rfl rfl

/-! ## Termination of the cycle check (C10)

The Python `has_cycle_dfs` carries no fuel; the embedding's fuel of
`|univ| + 1` is proved sufficient here: every recursive call is on a node
not yet visited and inserts it into `visited` first, so the number of
unvisited members of the finite universe `cycleUniv` strictly decreases. -/

/-- Number of universe members not yet visited. -/
def cntUnvisited (univ vis : List String) : Nat :=
  (univ.filter (fun x => x ∉ vis)).length

theorem length_filter_mono (l : List String) (p q : String → Bool)
    (h : ∀ x, q x = true → p x = true) :
    (l.filter q).length ≤ (l.filter p).length := by
  induction l with
  | nil => simp
  | cons a t ih =>
    by_cases hq : q a = true
    · rw [List.filter_cons_of_pos hq, List.filter_cons_of_pos (h a hq)]
      simpa using ih
    · rw [List.filter_cons_of_neg (by simpa using hq)]
      by_cases hp : p a = true
      · rw [List.filter_cons_of_pos hp]
        exact le_trans ih (Nat.le_succ _)
      · rw [List.filter_cons_of_neg (by simpa using hp)]
        exact ih

theorem cntUnvisited_le_of_subset (univ vis vis' : List String) (h : vis ⊆ vis') :
    cntUnvisited univ vis' ≤ cntUnvisited univ vis := by
  apply length_filter_mono
  intro x hx
  simp only [decide_eq_true_eq] at hx ⊢
  exact fun hmem => hx (h hmem)

theorem cntUnvisited_push_lt (univ : List String) (hn : univ.Nodup) (vis : List String)
    (n : String) (hmem : n ∈ univ) (hnv : n ∉ vis) :
    cntUnvisited univ (n :: vis) < cntUnvisited univ vis := by
  induction univ with
  | nil => cases hmem
  | cons a t ih =>
    rw [List.nodup_cons] at hn
    obtain ⟨hat, hnt⟩ := hn
    by_cases hna : n = a
    · subst hna
      rw [cntUnvisited, cntUnvisited,
        List.filter_cons_of_neg (by simp),
        List.filter_cons_of_pos (by simpa using hnv)]
      refine Nat.lt_succ_of_le (length_filter_mono t _ _ ?_)
      intro x hx
      simp only [decide_eq_true_eq, List.mem_cons, not_or] at hx ⊢
      exact hx.2
    · have hnt' : n ∈ t := by
        rcases List.mem_cons.mp hmem with h | h
        · exact absurd h hna
        · exact h
      by_cases hav : a ∈ vis
      · rw [cntUnvisited, cntUnvisited,
          List.filter_cons_of_neg (by simp [hav]),
          List.filter_cons_of_neg (by simp [hav])]
        exact ih hnt hnt'
      · rw [cntUnvisited, cntUnvisited,
          List.filter_cons_of_pos (by simp [hav, Ne.symm hna]),
          List.filter_cons_of_pos (by simp [hav])]
        exact Nat.succ_lt_succ (ih hnt hnt')

theorem cntUnvisited_le_length (univ vis : List String) :
    cntUnvisited univ vis ≤ univ.length :=
  List.length_filter_le _ _

theorem goNeighbors_visited_mono
    (rec_ : String → DfsSt → Option (Bool × DfsSt))
    (hrec : ∀ n st b st', rec_ n st = some (b, st') → st.visited ⊆ st'.visited) :
    ∀ (xs : List String) (st : DfsSt) (b : Bool) (st' : DfsSt),
      goNeighbors rec_ xs st = some (b, st') → st.visited ⊆ st'.visited := by
  intro xs
  induction xs with
  | nil =>
    intro st b st' h
    rcases h with ⟨rfl⟩
    exact fun x hx => hx
  | cons x xs ih =>
    intro st b st' h
    rw [goNeighbors] at h
    rcases hx : rec_ x st with _ | ⟨b1, st1⟩
    · rw [hx] at h; cases h
    · rw [hx] at h
      cases b1 with
      | true =>
        rcases h with ⟨rfl⟩
        exact hrec x st true st' hx
      | false =>
        exact fun y hy => ih st1 b st' h (hrec x st false st1 hx hy)

theorem dfsNode_visited_mono (adj : Adj) :
    ∀ (fuel : Nat) (n : String) (st : DfsSt) (b : Bool) (st' : DfsSt),
      dfsNode adj fuel n st = some (b, st') → st.visited ⊆ st'.visited := by
  intro fuel
  induction fuel with
  | zero => intro n st b st' h; cases h
  | succ fuel ih =>
    intro n st b st' h
    simp only [dfsNode] at h
    by_cases h1 : n ∈ st.stack
    · rw [if_pos h1] at h
      rcases h with ⟨rfl⟩
      exact fun x hx => hx
    · rw [if_neg h1] at h
      by_cases h2 : n ∈ st.visited
      · rw [if_pos h2] at h
        rcases h with ⟨rfl⟩
        exact fun x hx => hx
      · rw [if_neg h2] at h
        rcases hgo : goNeighbors (fun a b => dfsNode adj fuel a b)
            (lookupAdj adj n) ⟨n :: st.visited, n :: st.stack⟩ with _ | ⟨b2, st2⟩
        · rw [hgo] at h; cases h
        · rw [hgo] at h
          have hmono := goNeighbors_visited_mono (fun a b => dfsNode adj fuel a b)
            (fun n st b st' hh => ih n st b st' hh) (lookupAdj adj n)
            ⟨n :: st.visited, n :: st.stack⟩ b2 st2 hgo
          have hsub : st.visited ⊆ st2.visited := fun x hx =>
            hmono (List.mem_cons_of_mem _ hx)
          cases b2 with
          | true => rcases h with ⟨rfl⟩; exact hsub
          | false => rcases h with ⟨rfl⟩; exact hsub

theorem goNeighbors_total (adj : Adj) (univ : List String)
    (fuel : Nat)
    (ihf : ∀ (n : String) (st : DfsSt), n ∈ univ →
      cntUnvisited univ st.visited < fuel → ∃ r, dfsNode adj fuel n st = some r) :
    ∀ (xs : List String) (st : DfsSt), (∀ x ∈ xs, x ∈ univ) →
      cntUnvisited univ st.visited < fuel →
      ∃ r, goNeighbors (fun a b => dfsNode adj fuel a b) xs st = some r := by
  intro xs
  induction xs with
  | nil => intro st _ _; exact ⟨(false, st), rfl⟩
  | cons x xs ih =>
    intro st hxs hcnt
    obtain ⟨⟨b1, st1⟩, h1⟩ := ihf x st (hxs x (List.mem_cons_self _ _)) hcnt
    cases b1 with
    | true =>
      refine ⟨(true, st1), ?_⟩
      simp only [goNeighbors, h1]
    | false =>
      have hsub := dfsNode_visited_mono adj fuel x st false st1 h1
      have hcnt1 : cntUnvisited univ st1.visited < fuel :=
        lt_of_le_of_lt (cntUnvisited_le_of_subset univ _ _ hsub) hcnt
      obtain ⟨r, hr⟩ := ih st1 (fun y hy => hxs y (List.mem_cons_of_mem _ hy)) hcnt1
      refine ⟨r, ?_⟩
      simp only [goNeighbors, h1, hr]

theorem dfsNode_total (adj : Adj) (univ : List String) (hnd : univ.Nodup)
    (hclos : ∀ a b, b ∈ lookupAdj adj a → b ∈ univ) :
    ∀ (fuel : Nat) (n : String) (st : DfsSt), n ∈ univ →
      cntUnvisited univ st.visited < fuel → ∃ r, dfsNode adj fuel n st = some r := by
  intro fuel
  induction fuel with
  | zero => intro n st _ h; cases h
  | succ fuel ih =>
    intro n st hn hcnt
    simp only [dfsNode]
    by_cases h1 : n ∈ st.stack
    · rw [if_pos h1]; exact ⟨(true, st), rfl⟩
    · rw [if_neg h1]
      by_cases h2 : n ∈ st.visited
      · rw [if_pos h2]; exact ⟨(false, st), rfl⟩
      · rw [if_neg h2]
        have hcnt1 : cntUnvisited univ (n :: st.visited) < fuel := by
          have hlt := cntUnvisited_push_lt univ hnd st.visited n hn h2
          omega
        obtain ⟨⟨b2, st2⟩, hgo⟩ := goNeighbors_total adj univ fuel ih (lookupAdj adj n)
          ⟨n :: st.visited, n :: st.stack⟩ (fun x hx => hclos n x hx) hcnt1
        rw [hgo]
        cases b2 with
        | true => exact ⟨(true, st2), rfl⟩
        | false => exact ⟨(false, ⟨st2.visited, st2.stack.erase n⟩), rfl⟩

theorem checkOuter_total (adj : Adj) (univ : List String) (hnd : univ.Nodup)
    (hclos : ∀ a b, b ∈ lookupAdj adj a → b ∈ univ) :
    ∀ (ns : List WorkflowNode) (st : DfsSt),
      (∀ n ∈ ns, n.id ∈ univ) →
      ∃ b, checkOuter adj (univ.length + 1) ns st = some b := by
  intro ns
  induction ns with
  | nil => intro st _; exact ⟨false, rfl⟩
  | cons n ns ih =>
    intro st hns
    rw [checkOuter]
    by_cases hv : n.id ∈ st.visited
    · rw [if_pos hv]
      exact ih st (fun m hm => hns m (List.mem_cons_of_mem _ hm))
    · rw [if_neg hv]
      have hcnt : cntUnvisited univ st.visited < univ.length + 1 :=
        Nat.lt_succ_of_le (cntUnvisited_le_length univ st.visited)
      obtain ⟨⟨b1, st1⟩, h1⟩ := dfsNode_total adj univ hnd hclos (univ.length + 1) n.id st
        (hns n (List.mem_cons_self _ _)) hcnt
      rw [h1]
      cases b1 with
      | true => exact ⟨true, rfl⟩
      | false => exact ih st1 (fun m hm => hns m (List.mem_cons_of_mem _ hm))

theorem appendTarget_isSome (adj adj' : Adj) (s t : String)
    (h : appendTarget adj s t = some adj') (k : String) :
    (alookup adj' k).isSome = (alookup adj k).isSome := by
  rw [appendTarget_lookup adj adj' s t h k]
  by_cases hk : k = s
  · rw [if_pos hk, hk]
    cases alookup adj s <;> simp
  · rw [if_neg hk]

theorem addEdges_some_of_sources (es : List WorkflowEdge) (adj : Adj)
    (h : ∀ e ∈ es, (alookup adj e.source).isSome = true) :
    ∃ adj', addEdges adj es = some adj' := by
  induction es generalizing adj with
  | nil => exact ⟨adj, rfl⟩
  | cons e es ih =>
    rcases hap : appendTarget adj e.source e.target with _ | adj1
    · rw [appendTarget_none_iff] at hap
      have := h e (List.mem_cons_self _ _)
      rw [hap] at this
      cases this
    · have hkeys : ∀ e' ∈ es, (alookup adj1 e'.source).isSome = true := by
        intro e' he'
        rw [appendTarget_isSome adj adj1 e.source e.target hap]
        exact h e' (List.mem_cons_of_mem _ he')
      obtain ⟨adj', hadj'⟩ := ih adj1 hkeys
      refine ⟨adj', ?_⟩
      simp only [addEdges, hap]
      exact hadj'

/-- Totality of the cycle check whenever every edge source resolves to a
node (the condition under which the Python code reaches the DFS at all
rather than raising `KeyError` while building the adjacency). -/
theorem checkForCycles_total (nodes : List WorkflowNode)
    (edges : List WorkflowEdge)
    (hsrc : ∀ e ∈ edges, e.source ∈ nodes.map (fun n => n.id)) :
    ∃ b, checkForCycles nodes edges = some b := by
  have hsome : ∀ e ∈ edges, (alookup (initAdj nodes) e.source).isSome = true := by
    intro e he
    rw [alookup_initAdj, if_pos (hsrc e he)]
    rfl
  obtain ⟨adj, hadj⟩ := addEdges_some_of_sources edges (initAdj nodes) hsome
  have hclos : ∀ a b, b ∈ lookupAdj adj a → b ∈ cycleUniv nodes edges := by
    intro a b hb
    have := (mem_lookupAdj_iff nodes edges adj hadj a b).mp hb
    rcases this.2 with ⟨e, he, _, htgt⟩
    rw [cycleUniv, List.mem_dedup]
    exact List.mem_append_right _ (List.mem_map.mpr ⟨e, he, htgt⟩)
  have hnd : (cycleUniv nodes edges).Nodup := List.nodup_dedup _
  have hids : ∀ n ∈ nodes, n.id ∈ cycleUniv nodes edges := by
    intro n hn
    rw [cycleUniv, List.mem_dedup]
    exact List.mem_append_left _ (List.mem_map.mpr ⟨n, hn, rfl⟩)
  obtain ⟨b, hb⟩ := checkOuter_total adj (cycleUniv nodes edges) hnd hclos nodes
    ⟨[], []⟩ hids
  refine ⟨b, ?_⟩
  simp only [checkForCycles, hadj]
  exact hb

/-- C10: assuming every edge source resolves to a node, `_check_for_cycles`
terminates on every finite graph — cyclic ones included — and returns a
boolean: each depth-first call on an unvisited node adds it to `visited`
before recursing, so the recursion is well-founded on the number of
unvisited nodes (here: the fuel `|universe| + 1` is never exhausted). -/
theorem C10_cycle_check_terminates (nodes : List WorkflowNode)
    (edges : List WorkflowEdge)
    (hsrc : ∀ e ∈ edges, e.source ∈ nodes.map (fun n => n.id)) :
    ∃ b, checkForCycles nodes edges = some b :=
  checkForCycles_total nodes edges hsrc

theorem C10_cycle_check_terminates_witness :
    ∃ b, checkForCycles selfLoopWorkflow.nodes selfLoopWorkflow.edges = some b :=
  C10_cycle_check_terminates selfLoopWorkflow.nodes selfLoopWorkflow.edges (by decide)

/-! ## Correctness of the cycle check (C5)

The DFS keeps a `visited` set and a `recursion_stack`; it reports a cycle
exactly when the graph has one.  Soundness: the stack is a chain of
adjacency arcs, so meeting a stack member closes a cycle.  Completeness:
a ghost finish order `F` (most recently finished first) satisfies the
invariant that every arc out of a finished node leads to a node finished
strictly earlier, which forbids cycles among finished nodes; at the end
every node is finished. -/

/-- One adjacency arc of the built adjacency structure. -/
def edgeAdjRel (adj : Adj) (a b : String) : Prop :=
  b ∈ lookupAdj adj a

/-- A cycle along adjacency arcs. -/
def HasCycleAdj (adj : Adj) : Prop :=
  ∃ m, Relation.TransGen (edgeAdjRel adj) m m

/-- Pre-condition of a `has_cycle_dfs(n)` call: either a root call (empty
stack) or a call on a neighbour of the stack top. -/
def CallOK (adj : Adj) (n : String) : List String → Prop
  | [] => True
  | p :: _ => edgeAdjRel adj p n

/-- `b` occurs strictly after (deeper than) `a` in the finish list. -/
def StrictAfter (F : List String) (a b : String) : Prop :=
  ∃ l1 l2, F = l1 ++ a :: l2 ∧ b ∈ l2

/-- Invariant tying the DFS state to the ghost finish order `F`:
`visited` is exactly stack plus finished, both duplicate-free and
disjoint, the stack is a chain of arcs (each entry an adjacency successor
of the one below), and every arc out of a finished node lands strictly
deeper in `F`. -/
structure DfsInv (adj : Adj) (st : DfsSt) (F : List String) : Prop where
  mem_iff : ∀ x, x ∈ st.visited ↔ x ∈ st.stack ∨ x ∈ F
  nodup_stack : st.stack.Nodup
  nodup_fin : F.Nodup
  disj : ∀ x ∈ st.stack, x ∉ F
  chain : List.Chain' (fun a b => edgeAdjRel adj b a) st.stack
  older : ∀ l1 a l2, F = l1 ++ a :: l2 → ∀ b, edgeAdjRel adj a b → b ∈ l2

theorem chain_reach (adj : Adj) :
    ∀ (l1 : List String) (n : String) (l2 : List String) (p : String)
      (rest : List String), p :: rest = l1 ++ n :: l2 →
      List.Chain' (fun a b => edgeAdjRel adj b a) (p :: rest) →
      Relation.ReflTransGen (edgeAdjRel adj) n p := by
  intro l1
  induction l1 with
  | nil =>
    intro n l2 p rest h _
    injection h with h1 _
    rw [h1]
  | cons q l1' ih =>
    intro n l2 p rest h hc
    injection h with h1 h2
    subst h1
    simp only [List.append_eq] at h2
    rcases hr : l1' ++ n :: l2 with _ | ⟨p', rest'⟩
    · simp at hr
    · rw [hr] at h2
      subst h2
      have hcc := List.chain'_cons.mp hc
      exact Relation.ReflTransGen.tail (ih n l2 p' rest' hr.symm hcc.2) hcc.1

theorem strictAfter_of_transGen (adj : Adj) (F : List String)
    (holder : ∀ l1 a l2, F = l1 ++ a :: l2 → ∀ b, edgeAdjRel adj a b → b ∈ l2) :
    ∀ a b, Relation.TransGen (edgeAdjRel adj) a b → a ∈ F → StrictAfter F a b := by
  intro a b htg
  induction htg with
  | single h =>
    intro ha
    obtain ⟨l1, l2, hdecomp⟩ := List.append_of_mem ha
    exact ⟨l1, l2, hdecomp, holder l1 a l2 hdecomp _ h⟩
  | @tail bmid c _ hbc ih =>
    intro ha
    obtain ⟨l1, l2, hF, hb⟩ := ih ha
    obtain ⟨m1, m2, hl2⟩ := List.append_of_mem hb
    have hF2 : F = (l1 ++ a :: m1) ++ bmid :: m2 := by
      rw [hF, hl2]
      simp
    have hc := holder _ _ _ hF2 _ hbc
    refine ⟨l1, l2, hF, ?_⟩
    rw [hl2]
    exact List.mem_append_right _ (List.mem_cons_of_mem _ hc)

theorem transGen_first {r : String → String → Prop} {a b : String}
    (h : Relation.TransGen r a b) : ∃ c, r a c := by
  induction h with
  | single h => exact ⟨_, h⟩
  | tail _ _ ih => exact ih

theorem goNeighbors_spec_aux (adj : Adj)
    (rec_ : String → DfsSt → Option (Bool × DfsSt))
    (hrec : ∀ (n : String) (st : DfsSt) (b : Bool) (st' : DfsSt) (F : List String),
      rec_ n st = some (b, st') → DfsInv adj st F → CallOK adj n st.stack →
      (b = true → HasCycleAdj adj) ∧
      (b = false → st'.stack = st.stack ∧
        ∃ F', DfsInv adj st' F' ∧ F.IsSuffix F' ∧ n ∈ F')) :
    ∀ (xs : List String) (st : DfsSt) (b : Bool) (st' : DfsSt) (F : List String)
      (p : String) (rest : List String),
      st.stack = p :: rest →
      (∀ x ∈ xs, edgeAdjRel adj p x) →
      goNeighbors rec_ xs st = some (b, st') →
      DfsInv adj st F →
      (b = true → HasCycleAdj adj) ∧
      (b = false → st'.stack = st.stack ∧
        ∃ F', DfsInv adj st' F' ∧ F.IsSuffix F' ∧ ∀ x ∈ xs, x ∈ F') := by
  intro xs
  induction xs with
  | nil =>
    intro st b st' F p rest _ _ h hinv
    rcases h with ⟨rfl, rfl⟩
    refine ⟨fun hb => Bool.noConfusion hb, fun _ => ?_⟩
    constructor
    · rfl
    · refine ⟨F, hinv, List.suffix_refl F, ?_⟩
      intro x hx
      cases hx
  | cons x xs ih =>
    intro st b st' F p rest hstk hedges h hinv
    rw [goNeighbors] at h
    rcases hx : rec_ x st with _ | ⟨b1, st1⟩
    · rw [hx] at h; cases h
    · rw [hx] at h
      have hcall : CallOK adj x st.stack := by
        rw [hstk]
        exact hedges x (List.mem_cons_self _ _)
      have hspec1 := hrec x st b1 st1 F hx hinv hcall
      cases b1 with
      | true =>
        rcases h with ⟨rfl, rfl⟩
        refine ⟨fun _ => ?_, fun hb => Bool.noConfusion hb⟩
        exact hspec1.1 rfl
      | false =>
        obtain ⟨hstack1, F1, hinv1, hsuf1, hxF1⟩ := hspec1.2 rfl
        have hstk1 : st1.stack = p :: rest := by rw [hstack1, hstk]
        have hrest := ih st1 b st' F1 p rest hstk1
          (fun y hy => hedges y (List.mem_cons_of_mem _ hy)) h hinv1
        refine ⟨hrest.1, fun hb => ?_⟩
        obtain ⟨hstack2, F2, hinv2, hsuf2, hall⟩ := hrest.2 hb
        refine ⟨by rw [hstack2, hstack1], F2, hinv2, hsuf1.trans hsuf2, ?_⟩
        intro y hy
        rcases List.mem_cons.mp hy with rfl | hy'
        · exact hsuf2.subset hxF1
        · exact hall y hy'

theorem dfsNode_spec (adj : Adj) :
    ∀ (fuel : Nat) (n : String) (st : DfsSt) (b : Bool) (st' : DfsSt) (F : List String),
      dfsNode adj fuel n st = some (b, st') →
      DfsInv adj st F → CallOK adj n st.stack →
      (b = true → HasCycleAdj adj) ∧
      (b = false → st'.stack = st.stack ∧
        ∃ F', DfsInv adj st' F' ∧ F.IsSuffix F' ∧ n ∈ F') := by
  intro fuel
  induction fuel with
  | zero => intro n st b st' F h _ _; cases h
  | succ fuel ih =>
    intro n st b st' F h hinv hcall
    simp only [dfsNode] at h
    by_cases h1 : n ∈ st.stack
    · rw [if_pos h1] at h
      rcases h with ⟨rfl, rfl⟩
      refine ⟨fun _ => ?_, fun hb => Bool.noConfusion hb⟩
      obtain ⟨l1, l2, hdec⟩ := List.append_of_mem h1
      rcases hstk : st.stack with _ | ⟨p, rest⟩
      · rw [hstk] at h1; cases h1
      · have hedge : edgeAdjRel adj p n := by
          have hco := hcall
          rw [hstk] at hco
          exact hco
        have hreach : Relation.ReflTransGen (edgeAdjRel adj) n p := by
          apply chain_reach adj l1 n l2 p rest
          · rw [← hstk, hdec]
          · rw [← hstk]
            exact hinv.chain
        exact ⟨n, Relation.TransGen.tail' hreach hedge⟩
    · rw [if_neg h1] at h
      by_cases h2 : n ∈ st.visited
      · rw [if_pos h2] at h
        rcases h with ⟨rfl, rfl⟩
        refine ⟨fun hb => Bool.noConfusion hb, fun _ => ?_⟩
        constructor
        · rfl
        · refine ⟨F, hinv, List.suffix_refl F, ?_⟩
          rcases (hinv.mem_iff n).mp h2 with hs | hf
          · exact absurd hs h1
          · exact hf
      · rw [if_neg h2] at h
        rcases hgo : goNeighbors (fun a b => dfsNode adj fuel a b) (lookupAdj adj n)
            ⟨n :: st.visited, n :: st.stack⟩ with _ | ⟨b2, st2⟩
        · rw [hgo] at h; cases h
        · rw [hgo] at h
          have hinv1 : DfsInv adj ⟨n :: st.visited, n :: st.stack⟩ F := by
            refine ⟨?_, ?_, hinv.nodup_fin, ?_, ?_, hinv.older⟩
            · intro x
              simp only [List.mem_cons]
              rw [hinv.mem_iff x]
              tauto
            · exact List.nodup_cons.mpr ⟨h1, hinv.nodup_stack⟩
            · intro x hx
              rcases List.mem_cons.mp hx with rfl | hx'
              · intro hF
                exact h2 ((hinv.mem_iff x).mpr (Or.inr hF))
              · exact hinv.disj x hx'
            · refine List.chain'_cons'.mpr ⟨?_, hinv.chain⟩
              intro y hy
              rcases hstk2 : st.stack with _ | ⟨p, rest⟩
              · rw [hstk2] at hy; cases hy
              · rw [hstk2] at hy
                have hyp : y = p := by
                  simp only [List.head?] at hy
                  exact (Option.mem_some_iff.mp hy).symm
                subst hyp
                have hco := hcall
                rw [hstk2] at hco
                exact hco
          have hgspec := goNeighbors_spec_aux adj (fun a b => dfsNode adj fuel a b)
            (fun n st b st' F hh hi hc => ih n st b st' F hh hi hc)
            (lookupAdj adj n) ⟨n :: st.visited, n :: st.stack⟩ b2 st2 F n st.stack rfl
            (fun x hx => hx) hgo hinv1
          cases b2 with
          | true =>
            rcases h with ⟨rfl, rfl⟩
            refine ⟨fun _ => ?_, fun hb => Bool.noConfusion hb⟩
            exact hgspec.1 rfl
          | false =>
            rcases h with ⟨rfl, rfl⟩
            obtain ⟨hstack2, F2, hinv2, hsuf2, hall⟩ := hgspec.2 rfl
            have herase : st2.stack.erase n = st.stack := by
              rw [hstack2, List.erase_cons_head]
            have hnF2 : n ∉ F2 :=
              hinv2.disj n (by rw [hstack2]; exact List.mem_cons_self _ _)
            refine ⟨fun hb => Bool.noConfusion hb, fun _ => ?_⟩
            refine ⟨herase, n :: F2, ?_,
              hsuf2.trans (List.suffix_cons n F2), List.mem_cons_self _ _⟩
            refine ⟨?_, ?_, ?_, ?_, ?_, ?_⟩
            · intro x
              show x ∈ st2.visited ↔ x ∈ st2.stack.erase n ∨ x ∈ n :: F2
              rw [herase, hinv2.mem_iff x, hstack2]
              simp only [List.mem_cons]
              tauto
            · show (st2.stack.erase n).Nodup
              rw [herase]
              exact hinv.nodup_stack
            · exact List.nodup_cons.mpr ⟨hnF2, hinv2.nodup_fin⟩
            · intro x hx
              rw [herase] at hx
              intro hmem
              rcases List.mem_cons.mp hmem with rfl | hF2
              · exact h1 hx
              · exact hinv2.disj x
                  (by rw [hstack2]; exact List.mem_cons_of_mem _ hx) hF2
            · show List.Chain' (fun a b => edgeAdjRel adj b a) (st2.stack.erase n)
              rw [herase]
              exact hinv.chain
            · intro l1 a l2 hdec b hedge
              rcases l1 with _ | ⟨q, l1'⟩
              · injection hdec with ha hl
                subst ha
                subst hl
                exact hall b hedge
              · injection hdec with _ hdec'
                exact hinv2.older l1' a l2 hdec' b hedge

theorem checkOuter_spec (adj : Adj) (fuel : Nat) :
    ∀ (ns : List WorkflowNode) (st : DfsSt) (F : List String) (b : Bool),
      checkOuter adj fuel ns st = some b → DfsInv adj st F → st.stack = [] →
      (b = true → HasCycleAdj adj) ∧
      (b = false → ∃ st' F', DfsInv adj st' F' ∧ st'.stack = [] ∧
        F.IsSuffix F' ∧ ∀ n ∈ ns, n.id ∈ F') := by
  intro ns
  induction ns with
  | nil =>
    intro st F b h hinv hstk
    rcases h with ⟨rfl⟩
    refine ⟨fun hb => Bool.noConfusion hb, fun _ => ?_⟩
    refine ⟨st, F, hinv, hstk, List.suffix_refl F, ?_⟩
    intro n hn
    cases hn
  | cons n ns ih =>
    intro st F b h hinv hstk
    rw [checkOuter] at h
    by_cases hv : n.id ∈ st.visited
    · rw [if_pos hv] at h
      have hres := ih st F b h hinv hstk
      refine ⟨hres.1, fun hb => ?_⟩
      obtain ⟨st', F', hinv', hstk', hsuf, hall⟩ := hres.2 hb
      refine ⟨st', F', hinv', hstk', hsuf, ?_⟩
      intro m hm
      rcases List.mem_cons.mp hm with rfl | hm'
      · rcases (hinv.mem_iff m.id).mp hv with hs | hf
        · rw [hstk] at hs; cases hs
        · exact hsuf.subset hf
      · exact hall m hm'
    · rw [if_neg hv] at h
      rcases hd : dfsNode adj fuel n.id st with _ | ⟨b1, st1⟩
      · rw [hd] at h; cases h
      · rw [hd] at h
        have hcall : CallOK adj n.id st.stack := by
          rw [hstk]
          trivial
        have hspec := dfsNode_spec adj fuel n.id st b1 st1 F hd hinv hcall
        cases b1 with
        | true =>
          rcases h with ⟨rfl⟩
          refine ⟨fun _ => ?_, fun hb => Bool.noConfusion hb⟩
          exact hspec.1 rfl
        | false =>
          obtain ⟨hstk1, F1, hinv1, hsuf1, hnF1⟩ := hspec.2 rfl
          have hstk1' : st1.stack = [] := by rw [hstk1, hstk]
          have hres := ih st1 F1 b h hinv1 hstk1'
          refine ⟨hres.1, fun hb => ?_⟩
          obtain ⟨st', F', hinv', hstk', hsuf, hall⟩ := hres.2 hb
          refine ⟨st', F', hinv', hstk', hsuf1.trans hsuf, ?_⟩
          intro m hm
          rcases List.mem_cons.mp hm with rfl | hm'
          · exact hsuf.subset hnF1
          · exact hall m hm'

theorem edgeAdjRel_iff (nodes : List WorkflowNode) (edges : List WorkflowEdge)
    (adj : Adj) (hadd : addEdges (initAdj nodes) edges = some adj)
    (hsrc : ∀ e ∈ edges, e.source ∈ nodes.map (fun n => n.id)) (a b : String) :
    edgeAdjRel adj a b ↔ EdgeStep edges a b := by
  rw [edgeAdjRel, mem_lookupAdj_iff nodes edges adj hadd]
  constructor
  · exact fun h => h.2
  · rintro ⟨e, he, hes, het⟩
    exact ⟨by rw [← hes]; exact hsrc e he, e, he, hes, het⟩

/-- The cycle check returns `true` exactly when the workflow graph has a
directed cycle (under resolvable edge sources). -/
theorem checkForCycles_iff (nodes : List WorkflowNode) (edges : List WorkflowEdge)
    (hsrc : ∀ e ∈ edges, e.source ∈ nodes.map (fun n => n.id)) :
    ∃ b, checkForCycles nodes edges = some b ∧ (b = true ↔ HasCycle edges) := by
  obtain ⟨b, hb⟩ := checkForCycles_total nodes edges hsrc
  refine ⟨b, hb, ?_⟩
  rw [checkForCycles] at hb
  rcases hadd : addEdges (initAdj nodes) edges with _ | adj
  · rw [hadd] at hb; cases hb
  · rw [hadd] at hb
    have hinv0 : DfsInv adj ⟨[], []⟩ [] := by
      refine ⟨by simp, List.nodup_nil, List.nodup_nil, by simp, List.chain'_nil, ?_⟩
      intro l1 a l2 hl
      exact absurd hl.symm (by simp)
    have hspec := checkOuter_spec adj _ nodes ⟨[], []⟩ [] b hb hinv0 rfl
    constructor
    · intro hbt
      obtain ⟨m, hm⟩ := hspec.1 hbt
      exact ⟨m, Relation.TransGen.mono
        (fun x y hxy => (edgeAdjRel_iff nodes edges adj hadd hsrc x y).mp hxy) hm⟩
    · intro hcyc
      by_contra hbf
      have hbfalse : b = false := by
        cases b with
        | false => rfl
        | true => exact absurd rfl hbf
      obtain ⟨st', F', hinv', _, _, hall⟩ := hspec.2 hbfalse
      obtain ⟨m, hm⟩ := hcyc
      have hm' : Relation.TransGen (edgeAdjRel adj) m m :=
        Relation.TransGen.mono
          (fun x y hxy => (edgeAdjRel_iff nodes edges adj hadd hsrc x y).mpr hxy) hm
      have hmF : m ∈ F' := by
        obtain ⟨c, hc⟩ := transGen_first hm
        rcases hc with ⟨e, he, hes, _⟩
        have hmid : m ∈ nodes.map (fun n => n.id) := by
          rw [← hes]
          exact hsrc e he
        rcases List.mem_map.mp hmid with ⟨nd, hnd, hid⟩
        have hmem := hall nd hnd
        rw [hid] at hmem
        exact hmem
      obtain ⟨l1, l2, hF, hm2⟩ :=
        strictAfter_of_transGen adj F' hinv'.older m m hm' hmF
      have hnd := hinv'.nodup_fin
      rw [hF] at hnd
      exact (List.nodup_cons.mp (List.Nodup.of_append_right hnd)).1 hm2

/-- C5: for every workflow whose edge sources resolve to nodes (otherwise
the Python code raises before checking), `validate` reports the cycle
error `Workflow contains cycles which may cause infinite loops` exactly
when the graph has a directed cycle — self-loops and cycles in components
unreachable from any input node included, since the check starts a DFS
from every node — and any cycle forces `is_valid = false`; on acyclic
graphs the error never appears. -/
theorem C5_cycle_detection (w : Workflow)
    (hsrc : ∀ e ∈ w.edges, e.source ∈ w.nodes.map (fun n => n.id)) :
    ∃ r, validateWorkflow w = some r ∧
      (HasCycle w.edges ↔ cycleError ∈ r.errors) ∧
      (HasCycle w.edges → r.is_valid = false) := by
  obtain ⟨b, hb, hiff⟩ := checkForCycles_iff w.nodes w.edges hsrc
  simp only [validateWorkflow, hb]
  refine ⟨_, rfl, ?_, ?_⟩
  · have hmem : cycleError ∈
        (if (w.nodes.filter (fun n => n.type = "input")).isEmpty
          then [noInputError] else []) ++ (if b then [cycleError] else []) ↔
        b = true := by
      cases b with
      | false =>
        by_cases hin : (w.nodes.filter (fun n => n.type = "input")).isEmpty <;>
          simp [hin, show cycleError ≠ noInputError from by decide]
      | true =>
        simp
    exact Iff.trans (Iff.trans hiff.symm (by exact Iff.of_eq rfl)) hmem.symm
  · intro hcyc
    have hbt : b = true := hiff.mpr hcyc
    subst hbt
    by_cases hin : (w.nodes.filter (fun n => n.type = "input")).isEmpty <;>
      simp [hin]

theorem C5_cycle_detection_witness :
    ∃ r, validateWorkflow selfLoopWorkflow = some r ∧
      (HasCycle selfLoopWorkflow.edges ↔ cycleError ∈ r.errors) ∧
      (HasCycle selfLoopWorkflow.edges → r.is_valid = false) :=
  C5_cycle_detection selfLoopWorkflow (by decide)

end AgentUser
